import Mathlib

set_option maxHeartbeats 1000000

/-!
Verification development for the ipkg/blockchain node: a shallow embedding of
the consensus engine, proof-of-work miner, transaction-diff algorithm and the
chord-based replication transport (src/transport.go, src/net.go), together
with proofs of the spec's testable properties.

Machine integers are modelled as `Nat` (byte slices as `List Nat`); Go maps
are modelled as association lists with first-match lookup; the nondeterminism
of Go map iteration order is resolved to a canonical order, and every theorem
proved about such an order is order-insensitive (membership, distinctness).
-/

/-- A transaction record: sender key, receiver key, timestamp, payload hash,
payload length, nonce and signature.  The Go struct lives outside src/; its
shape is taken from the spec's data model (identity = signature). -/
structure Transaction where
  From : List Nat
  To : List Nat
  Timestamp : Nat
  PayloadHash : List Nat
  PayloadLength : Nat
  Nonce : Nat
  Signature : List Nat
deriving DecidableEq

/-- Go `type TransactionSlice []Transaction`. -/
abbrev TransactionSlice := List Transaction

/-- Lexicographic order on byte strings, used to state the spec's
"ordered consistently by signature" side condition. -/
def sigLe : List Nat → List Nat → Bool
  | [], _ => true
  | _ :: _, [] => false
  | x :: xs, y :: ys => if x < y then true else if y < x then false else sigLe xs ys

/-- A transaction sequence internally sorted by signature (the spec's ordering
assumption for the diff algorithm), as an executable check. -/
def sortedBySigB : TransactionSlice → Bool
  | [] => true
  | [_] => true
  | t :: u :: rest => sigLe t.Signature u.Signature && sortedBySigB (u :: rest)

/-- A transaction sequence internally sorted by signature. -/
abbrev sortedBySig (a : TransactionSlice) : Prop := sortedBySigB a = true

/-- Index of the first transaction with the given signature, scanning `l`
and reporting positions offset by `i`.  This is the inner `for j := lastj`
loop of `DiffTransactionSlices` (src/transport.go). -/
def findIdxFrom : List Transaction → List Nat → Nat → Option Nat
  | [], _, _ => none
  | t :: ts, sg, i => if t.Signature = sg then some i else findIdxFrom ts sg (i + 1)

/-- First index `j ≥ start` with `b[j].Signature = sg`, as the Go inner loop
computes it (`for j := lastj; j < len(b); j++`). -/
def findFrom (b : List Transaction) (sg : List Nat) (start : Nat) : Option Nat :=
  findIdxFrom (b.drop start) sg start

/-- One iteration of the Go `for _, t := range a` loop body of
`DiffTransactionSlices`: state is the pair (lastj, diff). -/
def diffStep (b : TransactionSlice) (st : Nat × TransactionSlice) (t : Transaction) :
    Nat × TransactionSlice :=
  match findFrom b t.Signature st.1 with
  | some j => (j, st.2)
  | none => (st.1, st.2 ++ [t])

/-- Go `DiffTransactionSlices(a, b)` (src/transport.go lines 562-580):
`lastj := 0`, then for each `t` of `a` scan `b` from `lastj` for a matching
signature; on a match set `lastj = j`, otherwise append `t` to the diff. -/
def DiffTransactionSlices (a b : TransactionSlice) : TransactionSlice :=
  (a.foldl (diffStep b) ((0 : Nat), ([] : TransactionSlice))).2

/-- The diff written as a recursion with an explicit cursor, advancing the
cursor TO the matched position on a match — exactly what the code's
`lastj = j` assignment does. -/
def diffFrom : TransactionSlice → TransactionSlice → Nat → TransactionSlice
  | [], _, _ => []
  | t :: ts, b, lastj =>
    match findFrom b t.Signature lastj with
    | some j => diffFrom ts b j
    | none => t :: diffFrom ts b lastj

/-- Modelled from the spec: the diff as the spec words it, with the cursor
advancing PAST the matched position ("on match, advance the cursor past that
position").  Kept beside the code's version to compare the two. -/
def diffPastFrom : TransactionSlice → TransactionSlice → Nat → TransactionSlice
  | [], _, _ => []
  | t :: ts, b, cursor =>
    match findFrom b t.Signature cursor with
    | some j => diffPastFrom ts b (j + 1)
    | none => t :: diffPastFrom ts b cursor

/-- Modelled from the spec: `DiffTransactionSlices` as the spec describes it,
cursor starting at 0 and advancing past each matched position. -/
def DiffTransactionSlicesSpec (a b : TransactionSlice) : TransactionSlice :=
  diffPastFrom a b 0

/-- A public/private key pair (keypair.go is outside src/; shape from the
spec's signing collaborator interface). -/
structure Keypair where
  Public : List Nat
  Private : List Nat
deriving DecidableEq

/-- A block header: origin key, previous-block hash, Merkle root, timestamp,
nonce (the Go struct lives outside src/; shape from the spec's data model). -/
structure BlockHeader where
  Origin : List Nat
  PrevBlock : List Nat
  MerkelRoot : List Nat
  Timestamp : Nat
  Nonce : Nat
deriving DecidableEq

/-- A block: an optional header pointer (Go `*BlockHeader`; `nil` is the
"not found" sentinel a responder sends back), ordered transactions and a
header signature. -/
structure Block where
  BlockHeader : Option BlockHeader
  TransactionSlice : TransactionSlice
  Signature : List Nat
deriving DecidableEq

/-- The all-empty header.  Go dereferences the header pointer directly (a nil
header would panic); engine-path blocks always carry a header, and this value
only stands in for that unreachable dereference. -/
def emptyBlockHeader : BlockHeader := ⟨[], [], [], 0, 0⟩

/-- Field promotion of the embedded header, as Go's `b.BlockHeader.X`. -/
def Block.hdr (b : Block) := b.BlockHeader.getD emptyBlockHeader

def Block.PrevBlock (b : Block) : List Nat := b.hdr.PrevBlock

def Block.MerkelRoot (b : Block) : List Nat := b.hdr.MerkelRoot

def Block.Nonce (b : Block) : Nat := b.hdr.Nonce

def Block.Timestamp (b : Block) : Nat := b.hdr.Timestamp

/-- Modelled from the spec: the transaction's own hash over its header fields
(transaction.go is outside src/).  The digest is modelled as an encoding of
the fields whose leading bytes the difficulty predicate reads. -/
def Transaction.Hash (t : Transaction) : List Nat :=
  t.Nonce % 256 :: t.Timestamp % 256 :: (t.From ++ t.To ++ t.PayloadHash ++ [t.PayloadLength])

/-- Modelled from the spec: block identity = hash of the header (block.go is
outside src/), modelled as an encoding of the header fields. -/
def Block.Hash (b : Block) : List Nat :=
  b.hdr.Nonce % 256 :: b.hdr.Timestamp % 256 ::
    (b.hdr.Origin ++ b.hdr.PrevBlock ++ b.hdr.MerkelRoot)

/-- Modelled from the spec: the deterministic difficulty predicate on hash
bytes — the hash must start with the given target's (all-zero) bytes. -/
def CheckProofOfWork (pow : List Nat) (hsh : List Nat) : Bool :=
  decide (hsh.take pow.length = pow)

/-- Modelled from the spec: proof-of-work targets; transactions use an easier
target than blocks (the concrete constants live outside src/). -/
def TRANSACTION_POW : List Nat := [0]

/-- Modelled from the spec: the block-level proof-of-work target. -/
def BLOCK_POW : List Nat := [0, 0]

/-- Modelled from the spec: transaction verification = transaction-level
proof-of-work on the transaction's own hash (key/signature checking is an
external collaborator, consumed only as a boolean). -/
def Transaction.VerifyTransaction (pow : List Nat) (t : Transaction) : Bool :=
  CheckProofOfWork pow (Transaction.Hash t)

/-- Modelled from the spec: block verification = block-level proof-of-work on
the block hash plus a set (nonempty) signature; key verification itself is an
external collaborator. -/
def Block.VerifyBlock (pow : List Nat) (b : Block) : Bool :=
  CheckProofOfWork pow (Block.Hash b) && !b.Signature.isEmpty

/-- Modelled from the spec: the Merkle root summarizing the block's
transaction set, recomputed whenever the set changes. -/
def Block.GenerateMerkelRoot (b : Block) : List Nat :=
  (b.TransactionSlice.map Transaction.Hash).flatten

/-- Modelled from the spec: signing a block's header with the node key. -/
def Block.Sign (b : Block) (kp : Keypair) : List Nat :=
  kp.Private ++ Block.Hash b

/-- Modelled from the spec: the broadcast unit {kind, payload bytes}. -/
structure Message where
  T : Nat
  Data : List Nat
deriving DecidableEq

/-- Modelled from the spec: the outbound transaction message kind (the
constant lives outside src/). -/
def MESSAGE_SEND_TRANSACTION : Nat := 0

/-- Modelled from the spec: the outbound block message kind. -/
def MESSAGE_SEND_BLOCK : Nat := 1

/-- Modelled from the spec: wire encodings, consumed as an opaque
self-describing codec; modelled as a field encoding. -/
def Transaction.MarshalBinary (t : Transaction) : List Nat :=
  Transaction.Hash t ++ t.Signature

/-- Modelled from the spec: block wire encoding. -/
def Block.MarshalBinary (b : Block) : List Nat :=
  Block.Hash b ++ b.Signature

/-- Go `type BlockSlice []Block` (the chain). -/
abbrev BlockSlice := List Block

/-- Modelled from the spec: `PreviousBlock()` returns the chain tip, or a
"none" sentinel when the chain is empty (BlockSlice methods are outside src/). -/
def BlockSlice.PreviousBlock (bs : BlockSlice) : Option Block := bs.getLast?

/-- Modelled from the spec: chain membership by block-hash equality. -/
def BlockSlice.Exists (bs : BlockSlice) (b : Block) : Bool :=
  bs.any (fun x => decide (Block.Hash x = Block.Hash b))

/-- Modelled from the spec: duplicate detection in the pending block — the
transaction's signature already present (identity = signature). -/
def TransactionSlice.Exists (sl : TransactionSlice) (tr : Transaction) : Bool :=
  sl.any (fun t => decide (t.Signature = tr.Signature))

/-- Modelled from the spec: append a transaction to the pending block. -/
def Block.AddTransaction (b : Block) (t : Transaction) : Block :=
  { b with TransactionSlice := b.TransactionSlice ++ [t] }

/-- Modelled from the spec: a fresh pending block carrying the given
previous-hash (block.go's NewBlock is outside src/). -/
def NewBlock (prevHash : List Nat) : Block :=
  { BlockHeader := some
      ({ Origin := [], PrevBlock := prevHash, MerkelRoot := [], Timestamp := 0, Nonce := 0 }),
    TransactionSlice := [], Signature := [] }

/-- Go `Blockchain` (src/transport.go): the pending block, the chain and the
node keypair.  The three channels are modelled by the event functions below. -/
structure Blockchain where
  CurrentBlock : Block
  BlockSlice : BlockSlice
  Keypair : Keypair
deriving DecidableEq

/-- Go `Blockchain.CreateNewBlock`: previous-hash from the chain tip (empty
for an empty chain), origin = this node's public key. -/
def Blockchain.CreateNewBlock (bl : Blockchain) : Block :=
  let prevBlockHash : List Nat :=
    match BlockSlice.PreviousBlock bl.BlockSlice with
    | none => []
    | some prevBlock => Block.Hash prevBlock
  let b := NewBlock prevBlockHash
  { b with BlockHeader := b.BlockHeader.map (fun h => { h with Origin := bl.Keypair.Public }) }

/-- Go `Blockchain.AddBlock`: append, no validation. -/
def Blockchain.AddBlock (bl : Blockchain) (b : Block) : Blockchain :=
  { bl with BlockSlice := bl.BlockSlice ++ [b] }

/-- What one engine event emits: an optional reseed handed to the miner's
interrupt channel, and the outbound messages put on the broadcast queue. -/
structure EngineEffects where
  reseed : Option Block
  msgs : List Message
deriving DecidableEq

/-- No reseed, no outbound message. -/
def noEffects : EngineEffects := ⟨none, []⟩

/-- The transaction arm of `Blockchain.Run`'s select (src/transport.go lines
460-477): drop a duplicate signature, drop a failed transaction-level
proof-of-work, otherwise append to the pending block, reseed the miner and
emit a transaction message. -/
def Blockchain.handleTransaction (bl : Blockchain) (tr : Transaction) :
    Blockchain × EngineEffects :=
  if TransactionSlice.Exists bl.CurrentBlock.TransactionSlice tr then (bl, noEffects)
  else if !Transaction.VerifyTransaction TRANSACTION_POW tr then (bl, noEffects)
  else
    let cb := Block.AddTransaction bl.CurrentBlock tr
    let bl1 := { bl with CurrentBlock := cb }
    let mes : Message := { T := MESSAGE_SEND_TRANSACTION, Data := Transaction.MarshalBinary tr }
    (bl1, ⟨some cb, [mes]⟩)

/-- The block arm of `Blockchain.Run`'s select (src/transport.go lines
478-512), exactly as the code reads: drop a known or unverified block; then
compare the incoming block's previous-hash against the hash of the PENDING
CurrentBlock and log the "missing blocks in between" gap on EQUALITY, doing
nothing else; in every other case diff the transactions when the Merkle roots
differ, append the block, broadcast it, and seed a fresh pending block with
the carried-forward diff. -/
def Blockchain.handleBlock (bl : Blockchain) (b : Block) : Blockchain × EngineEffects :=
  if BlockSlice.Exists bl.BlockSlice b then (bl, noEffects)
  else if !Block.VerifyBlock BLOCK_POW b then (bl, noEffects)
  else if Block.PrevBlock b = Block.Hash bl.CurrentBlock then (bl, noEffects)
  else
    let transDiff : TransactionSlice :=
      if Block.MerkelRoot b ≠ Block.MerkelRoot bl.CurrentBlock then
        DiffTransactionSlices bl.CurrentBlock.TransactionSlice b.TransactionSlice
      else []
    let bl1 := Blockchain.AddBlock bl b
    let mes : Message := { T := MESSAGE_SEND_BLOCK, Data := Block.MarshalBinary b }
    let nb0 := Blockchain.CreateNewBlock bl1
    let nb := { nb0 with TransactionSlice := transDiff }
    ({ bl1 with CurrentBlock := nb }, ⟨some nb, [mes]⟩)

/-- Result of one pass of the miner's inner loop: the block emitted on the
result queue (if any) and the hash values handed to the difficulty check. -/
structure MinerOutput where
  emitted : Option Block
  hashed : List (List Nat)
deriving DecidableEq

/-- A miner pass that neither emits nor hashes. -/
def MinerOutput.silent (o : MinerOutput) : Bool := o.emitted.isNone && o.hashed.isEmpty

/-- The reseed step at `loop:` in `Blockchain.GenerateBlocks` (src/transport.go
lines 523-527): recompute the Merkle root over the block's current transaction
set, zero the nonce, restamp with the current time. -/
def minerReseed (b : Block) (now : Nat) : Block :=
  { b with
      BlockHeader := some
        ({ b.hdr with
            MerkelRoot := Block.GenerateMerkelRoot b, Nonce := 0, Timestamp := now }) }

/-- One pass of the miner's inner `for` body (src/transport.go lines 529-546):
with transactions present evaluate proof-of-work on the block hash — on
success sign and emit the sealed block, otherwise increment the nonce; with no
transactions only sleep (nothing hashed, nothing emitted). -/
def minerIter (kp : Keypair) (block : Block) : Block × MinerOutput :=
  if block.TransactionSlice.length > 0 then
    if CheckProofOfWork BLOCK_POW (Block.Hash block) then
      let sealed := { block with Signature := Block.Sign block kp }
      (sealed, ⟨some sealed, [Block.Hash block]⟩)
    else
      ({ block with BlockHeader := some ({ block.hdr with Nonce := block.hdr.Nonce + 1 }) },
        ⟨none, [Block.Hash block]⟩)
  else
    (block, ⟨none, []⟩)

/-- The miner's loop state: the current seed block. -/
structure MinerState where
  block : Block
deriving DecidableEq

/-- What can wake the miner's select: a new seed block arriving on the
interrupt (handoff) channel stamped with the current time, or the sleep timer
firing. -/
inductive MinerEvent
  | seed (b : Block) (now : Nat)
  | wake
deriving DecidableEq

/-- One step of `Blockchain.GenerateBlocks`' event loop: a seed jumps to
`loop:` (reseed, then one inner pass); a timer wake runs one inner pass on the
current block. -/
def minerStep (kp : Keypair) (s : MinerState) (e : MinerEvent) : MinerState × MinerOutput :=
  match e with
  | .seed b now =>
    let p := minerIter kp (minerReseed b now)
    (⟨p.1⟩, p.2)
  | .wake =>
    let p := minerIter kp s.block
    (⟨p.1⟩, p.2)

/-- Run the miner over a sequence of events, collecting every pass's output. -/
def minerRun (kp : Keypair) (s : MinerState) : List MinerEvent → MinerState × List MinerOutput
  | [] => (s, [])
  | e :: es =>
    let p := minerStep kp s e
    let q := minerRun kp p.1 es
    (q.1, p.2 :: q.2)

/-- An event that cannot hand the miner a transaction: a reseed with an empty
transaction set, or a timer wake. -/
def MinerEvent.keepsEmpty : MinerEvent → Bool
  | .seed b _ => b.TransactionSlice.isEmpty
  | .wake => true

/-- A chord virtual node (go-chord's Vnode), reduced to the fields the
transport reads. -/
structure Vnode where
  Id : List Nat
  Host : String
deriving DecidableEq

/-- Go `type VnodeSlice []*chord.Vnode`. -/
abbrev VnodeSlice := List Vnode

/-- Go `VnodeSlice.UniqueHosts` (src/transport.go lines 366-378): collect the
hosts into a `map[string]bool` and return its key set.  Go map iteration order
is unspecified; the embedding returns a canonical order of the same set, and
every property proved below is order-insensitive. -/
def VnodeSlice.UniqueHosts (vl : VnodeSlice) : List String := (vl.map Vnode.Host).dedup

/-- The hosts `ChordTransport.broadcast` (src/transport.go lines 164-185)
issues a request to, given the replica set the ring lookup returned: each
unique host once, skipping the local node's own hostname. -/
def broadcastHosts (self : String) (vns : VnodeSlice) : List String :=
  (VnodeSlice.UniqueHosts vns).filter (fun h => decide (h ≠ self))

/-- Go `ChordTransport.broadcast`: a failed ring lookup issues no request at
all; otherwise one request per unique non-local host. -/
def ChordTransport.broadcast (self : String) (lookupResult : Except Unit VnodeSlice) :
    List String :=
  match lookupResult with
  | .error _ => []
  | .ok vns => broadcastHosts self vns

/-- Go `ChordTransport.RequestBlocks` (src/transport.go lines 220-248): per
hash, look up the replica set, and per unique non-local host pull the block by
hash; a request error is logged and skipped, a response whose header is the
nil "not found" sentinel is skipped, and only the remaining blocks are sent to
the engine's block channel.  `lookup` and `resp` stand for the ring and the
network's responses. -/
def ChordTransport.RequestBlocks (self : String)
    (lookup : List Nat → Except Unit VnodeSlice)
    (resp : String → List Nat → Except Unit Block)
    (hashes : List (List Nat)) : List Block :=
  hashes.flatMap (fun hsh =>
    match lookup hsh with
    | .error _ => []
    | .ok vns =>
      ((VnodeSlice.UniqueHosts vns).filter (fun h => decide (h ≠ self))).filterMap
        (fun host =>
          match resp host hsh with
          | .error _ => none
          | .ok blk =>
            match blk.BlockHeader with
            | none => none
            | some _ => some blk))

/-- An outbound connection, identified by its remote host (Go
`conn.RemoteAddr().String()`) and a tag distinguishing distinct connections. -/
structure Conn where
  host : String
  id : Nat
deriving DecidableEq

/-- The outbound pool `map[string][]net.Conn`, as an association list with
first-match lookup (Go map keys are unique). -/
abbrev Pool := List (String × List Conn)

/-- Lookup in the outbound map. -/
def poolGet : Pool → String → Option (List Conn)
  | [], _ => none
  | (k, v) :: rest, a => if k = a then some v else poolGet rest a

/-- Store under a key in the outbound map. -/
def poolSet : Pool → String → List Conn → Pool
  | [], a, cs => [(a, cs)]
  | (k, v) :: rest, a, cs => if k = a then (a, cs) :: rest else (k, v) :: poolSet rest a cs

/-- Every pooled connection, across all hosts. -/
def poolConns (m : Pool) : List Conn := (m.map Prod.snd).flatten

/-- Go `ChordTransport.getConn` (src/transport.go lines 131-148): pop the
first idle connection for the address if one exists, otherwise dial fresh.
`dialed` is what a fresh dial would produce (`none`: the dial fails). -/
def ChordTransport.getConn (m : Pool) (addr : String) (dialed : Option Conn) :
    Option (Conn × Pool) :=
  match poolGet m addr with
  | some (c :: rest) => some (c, poolSet m addr rest)
  | _ => dialed.map (fun d => (d, m))

/-- Go `ChordTransport.returnConn` (src/transport.go lines 150-162): push the
connection back onto the idle list keyed by its remote host. -/
def ChordTransport.returnConn (m : Pool) (conn : Conn) : Pool :=
  match poolGet m conn.host with
  | none => poolSet m conn.host [conn]
  | some p => poolSet m conn.host (p ++ [conn])

/-- How the encode/decode I/O of one request turns out: success, a benign
end-of-stream (Go maps `io.EOF` to a nil error), or any other I/O error. -/
inductive IOOutcome
  | ok
  | eofErr
  | ioErr
deriving DecidableEq

/-- What one outbound request leaves behind: the pool, whether an error was
returned to the caller, the connection used (none: dial failed) and whether
that connection was closed. -/
structure ReqResult where
  pool : Pool
  errReturned : Bool
  used : Option Conn
  closed : Bool
deriving DecidableEq

/-- Go `ChordTransport.doRequest` (src/transport.go lines 187-216): acquire a
connection, run the encode/decode exchange; on any I/O error close the
connection and leave it out of the pool (EOF additionally maps to a nil
error), on success return it to the pool. -/
def ChordTransport.doRequest (m : Pool) (host : String) (dialed : Option Conn)
    (outcome : IOOutcome) : ReqResult :=
  match ChordTransport.getConn m host dialed with
  | none => ⟨m, true, none, false⟩
  | some (conn, m1) =>
    match outcome with
    | .ok => ⟨ChordTransport.returnConn m1 conn, false, some conn, false⟩
    | .eofErr => ⟨m1, false, some conn, true⟩
    | .ioErr => ⟨m1, true, some conn, true⟩

/-- Go `ChordTransport.getBlockByType` (src/transport.go lines 103-129): the
first/last-block pull; same connection discipline as `doRequest`, written out
separately in the source. -/
def ChordTransport.getBlockByType (m : Pool) (host : String) (dialed : Option Conn)
    (outcome : IOOutcome) : ReqResult :=
  match ChordTransport.getConn m host dialed with
  | none => ⟨m, true, none, false⟩
  | some (conn, m1) =>
    match outcome with
    | .ok => ⟨ChordTransport.returnConn m1 conn, false, some conn, false⟩
    | .eofErr => ⟨m1, false, some conn, true⟩
    | .ioErr => ⟨m1, true, some conn, true⟩

/-- The pool's integrity: no connection is pooled twice, and every connection
sits on the idle list of its own remote host. -/
abbrev poolWF (m : Pool) : Prop :=
  (poolConns m).Nodup ∧ ∀ p ∈ m, ∀ c ∈ p.2, c.host = p.1

/-- The duplicated transaction of the C2 counterexample. -/
def c2t : Transaction := ⟨[1], [2], 0, [], 0, 0, [7]⟩

/-- C2 counterexample input a: the same signature twice (sorted). -/
def c2a : TransactionSlice := [c2t, c2t]

/-- C2 counterexample input b: that signature once (sorted). -/
def c2b : TransactionSlice := [c2t]

/-- The genesis block of the C1 failing input. -/
def c1Genesis : Block := ⟨some ⟨[7], [], [], 0, 0⟩, [], [5]⟩

/-- The engine's pending block in the C1 failing input (previous-hash = the
genesis hash, origin = the node key). -/
def c1Current : Block :=
  ⟨some ⟨[8], Block.Hash c1Genesis, [], 0, 0⟩, [], []⟩

/-- The engine state of the C1 failing input: chain = [genesis]. -/
def c1State : Blockchain := ⟨c1Current, [c1Genesis], ⟨[8], [88]⟩⟩

/-- The incoming block of the C1 failing input: verified, not in the chain,
previous-hash [9, 9, 9] matching neither the chain tip's hash nor the pending
block's hash. -/
def c1Block : Block :=
  ⟨some ⟨[6], [9, 9, 9], [4], 0, 0⟩, [⟨[1], [2], 0, [], 0, 0, [3]⟩], [3]⟩

/-- A one-connection pool for the C4 witness. -/
def c4pool : Pool := [("h1", [⟨"h1", 1⟩])]

/-- An empty-transaction miner seed for the C6 witness. -/
def c6s : MinerState := ⟨⟨some ⟨[], [], [], 0, 0⟩, [], []⟩⟩

/-- C6 witness events: wakes and an empty reseed. -/
def c6evs : List MinerEvent :=
  [MinerEvent.wake, MinerEvent.seed ⟨some ⟨[1], [2], [3], 4, 5⟩, [], [6]⟩ 9, MinerEvent.wake]

/-- The genuine block a peer returns in the C7 witness. -/
def c7blk : Block := ⟨some ⟨[1], [2], [3], 0, 0⟩, [], [0]⟩

/-- The ring lookup of the C7 witness: one replica on hostA. -/
def c7lookup : List Nat → Except Unit VnodeSlice := fun _ => Except.ok [⟨[], "hostA"⟩]

/-- The network responses of the C7 witness. -/
def c7resp : String → List Nat → Except Unit Block := fun _ _ => Except.ok c7blk

/-- The pulled hashes of the C7 witness. -/
def c7hashes : List (List Nat) := [[9]]

theorem findIdxFrom_le {l : List Transaction} {sg : List Nat} {i j : Nat}
    (h : findIdxFrom l sg i = some j) : i ≤ j := by
  induction l generalizing i with
  | nil => simp [findIdxFrom] at h
  | cons t ts ih =>
    unfold findIdxFrom at h
    split at h
    · cases h; exact Nat.le_refl _
    · exact Nat.le_of_succ_le (ih h)

theorem findIdxFrom_exists_le (l : List Transaction) (sg : List Nat) (i : Nat)
    {k : Nat} (hk : k < l.length) (hsig : (l.get ⟨k, hk⟩).Signature = sg) :
    ∃ j, findIdxFrom l sg i = some j ∧ j ≤ i + k := by
  induction l generalizing i k with
  | nil => simp at hk
  | cons t ts ih =>
    unfold findIdxFrom
    split
    · exact ⟨i, rfl, Nat.le_add_right _ _⟩
    · cases k with
      | zero =>
        have hts : t.Signature = sg := hsig
        simp_all
      | succ k' =>
        have hk' : k' < ts.length := Nat.lt_of_succ_lt_succ hk
        have hsig' : (ts.get ⟨k', hk'⟩).Signature = sg := hsig
        obtain ⟨j, hj, hle⟩ := ih (i + 1) hk' hsig'
        exact ⟨j, hj, by omega⟩

theorem findFrom_le {b : TransactionSlice} {sg : List Nat} {start j : Nat}
    (h : findFrom b sg start = some j) : start ≤ j :=
  findIdxFrom_le h

theorem findFrom_exists_le (b : TransactionSlice) (sg : List Nat) (start k : Nat)
    (hsk : start ≤ k) (hk : k < b.length) (hsig : (b.get ⟨k, hk⟩).Signature = sg) :
    ∃ j, findFrom b sg start = some j ∧ j ≤ k := by
  have hadd : start + (k - start) < b.length := by omega
  have hk' : k - start < (b.drop start).length := List.lt_length_drop b hadd
  have hcancel : start + (k - start) = k := by omega
  have hget : (b.drop start).get ⟨k - start, hk'⟩ = b.get ⟨k, hk⟩ := by
    simp only [List.get_eq_getElem]
    rw [← List.getElem_drop' b hadd]
    simp only [hcancel]
  obtain ⟨j, hj, hle⟩ := findIdxFrom_exists_le (b.drop start) sg start hk'
    (by rw [hget]; exact hsig)
  exact ⟨j, hj, by omega⟩

theorem foldl_diffStep_eq (b : TransactionSlice) :
    ∀ (a : TransactionSlice) (lastj : Nat) (acc : TransactionSlice),
      (a.foldl (diffStep b) (lastj, acc)).2 = acc ++ diffFrom a b lastj := by
  intro a
  induction a with
  | nil => intro lastj acc; simp [diffFrom]
  | cons t ts ih =>
    intro lastj acc
    simp only [List.foldl_cons, diffStep, diffFrom]
    cases h : findFrom b t.Signature lastj with
    | some j => simp [h, ih]
    | none => simp [h, ih]

theorem diff_eq_diffFrom (a b : TransactionSlice) :
    DiffTransactionSlices a b = diffFrom a b 0 := by
  unfold DiffTransactionSlices
  rw [foldl_diffStep_eq]
  simp

theorem diffFrom_append_self :
    ∀ (ts pre a : TransactionSlice) (lastj : Nat), a = pre ++ ts →
      lastj ≤ pre.length → diffFrom ts a lastj = [] := by
  intro ts
  induction ts with
  | nil => intro pre a lastj _ _; rfl
  | cons t ts' ih =>
    intro pre a lastj ha hle
    subst ha
    have hlen : pre.length < (pre ++ t :: ts').length := by simp
    have hget : (pre ++ t :: ts').get ⟨pre.length, hlen⟩ = t := by
      simp only [List.get_eq_getElem]
      rw [List.getElem_append_right (Nat.le_refl _)]
      simp
    obtain ⟨j, hj, hjle⟩ := findFrom_exists_le (pre ++ t :: ts') t.Signature lastj
      pre.length hle hlen (by rw [hget])
    unfold diffFrom
    rw [hj]
    exact ih (pre ++ [t]) (pre ++ t :: ts') j (by simp) (by simp; omega)

theorem diffFrom_sublist :
    ∀ (a b : TransactionSlice) (lastj : Nat), List.Sublist (diffFrom a b lastj) a := by
  intro a
  induction a with
  | nil => intro b lastj; exact List.Sublist.refl _
  | cons t ts ih =>
    intro b lastj
    unfold diffFrom
    cases h : findFrom b t.Signature lastj with
    | some j => exact List.Sublist.cons t (ih b j)
    | none => exact List.Sublist.cons₂ t (ih b lastj)

/-- C9: for every transaction sequence `a` that is internally sorted by
signature, `DiffTransactionSlices(a, a)` returns the empty sequence. -/
theorem diff_self_eq_nil (a : TransactionSlice) (h : sortedBySig a) :
    DiffTransactionSlices a a = [] := by
  rw [diff_eq_diffFrom]
  exact diffFrom_append_self a [] a 0 rfl (Nat.zero_le _)

/-- C9 witness: a concrete sorted slice on which the theorem applies. -/
theorem diff_self_eq_nil_witness :
    DiffTransactionSlices
      [⟨[1], [2], 0, [], 0, 0, [1]⟩, ⟨[3], [4], 0, [], 0, 0, [2]⟩]
      [⟨[1], [2], 0, [], 0, 0, [1]⟩, ⟨[3], [4], 0, [], 0, 0, [2]⟩] = [] :=
  diff_self_eq_nil
    [⟨[1], [2], 0, [], 0, 0, [1]⟩, ⟨[3], [4], 0, [], 0, 0, [2]⟩] (by decide)

/-- C10: with no ordering assumption, every transaction emitted by
`DiffTransactionSlices(a, b)` is an element of `a` and the diff preserves
`a`'s relative order: the diff is a subsequence of `a`. -/
theorem diff_sublist_of_left (a b : TransactionSlice) :
    List.Sublist (DiffTransactionSlices a b) a ∧
      ∀ t ∈ DiffTransactionSlices a b, t ∈ a := by
  rw [diff_eq_diffFrom]
  refine ⟨diffFrom_sublist a b 0, ?_⟩
  intro t ht
  exact (diffFrom_sublist a b 0).subset ht

theorem getBlockByType_eq_doRequest (m : Pool) (host : String) (dialed : Option Conn)
    (outcome : IOOutcome) :
    ChordTransport.getBlockByType m host dialed outcome =
      ChordTransport.doRequest m host dialed outcome := rfl

theorem poolGet_poolSet_self (m : Pool) (k : String) (v : List Conn) :
    poolGet (poolSet m k v) k = some v := by
  induction m with
  | nil => simp [poolSet, poolGet]
  | cons p rest ih =>
    obtain ⟨k', v'⟩ := p
    by_cases h : k' = k
    · simp [poolSet, poolGet, h]
    · simp [poolSet, poolGet, h, ih]

theorem poolGet_some_mem {m : Pool} {k : String} {cs : List Conn}
    (h : poolGet m k = some cs) : (k, cs) ∈ m := by
  induction m with
  | nil => simp [poolGet] at h
  | cons p rest ih =>
    obtain ⟨k', v'⟩ := p
    by_cases hk : k' = k
    · subst hk
      simp [poolGet] at h
      simp [h]
    · simp [poolGet, hk] at h
      exact List.mem_cons_of_mem _ (ih h)

theorem mem_poolConns_of_get {m : Pool} {k : String} {cs : List Conn}
    (h : poolGet m k = some cs) : ∀ c ∈ cs, c ∈ poolConns m := by
  intro c hc
  have hmem := poolGet_some_mem h
  simp only [poolConns, List.mem_flatten]
  exact ⟨cs, List.mem_map_of_mem Prod.snd hmem, hc⟩

theorem conn_host_of_get {m : Pool} (hwf : poolWF m) {k : String} {cs : List Conn}
    (h : poolGet m k = some cs) : ∀ c ∈ cs, c.host = k :=
  fun c hc => hwf.2 (k, cs) (poolGet_some_mem h) c hc

theorem not_mem_poolSet_tail {m : Pool} {k : String} {c : Conn} {rest : List Conn}
    (hnd : (poolConns m).Nodup) (h : poolGet m k = some (c :: rest)) :
    c ∉ poolConns (poolSet m k rest) := by
  induction m with
  | nil => simp [poolGet] at h
  | cons p ms ih =>
    obtain ⟨k', v'⟩ := p
    have hnd' : (v' ++ poolConns ms).Nodup := by
      simpa [poolConns] using hnd
    simp only [poolGet] at h
    by_cases hk : k' = k
    · rw [if_pos hk] at h
      injection h with h
      subst h
      simp only [poolSet, if_pos hk, poolConns, List.map_cons, List.flatten_cons]
      have h2 : (c :: (rest ++ poolConns ms)).Nodup := by simpa using hnd'
      exact (List.nodup_cons.mp h2).1
    · rw [if_neg hk] at h
      simp only [poolSet, if_neg hk, poolConns, List.map_cons, List.flatten_cons,
        List.mem_append]
      rintro (hv | hrest)
      · have hcm : c ∈ poolConns ms :=
          mem_poolConns_of_get h c (List.mem_cons_self _ _)
        exact (List.nodup_append.mp hnd').2.2 hv hcm
      · exact ih (List.nodup_append.mp hnd').2.1 h hrest

theorem returnConn_get (m : Pool) (c : Conn) :
    ∃ cs, poolGet (ChordTransport.returnConn m c) c.host = some (cs ++ [c]) := by
  unfold ChordTransport.returnConn
  cases h : poolGet m c.host with
  | none => exact ⟨[], by simp [poolGet_poolSet_self]⟩
  | some p => exact ⟨p, by simp [poolGet_poolSet_self]⟩

theorem getConn_cases (m : Pool) (addr : String) (dialed : Option Conn) :
    ChordTransport.getConn m addr dialed = none ∨
    (∃ c rest, poolGet m addr = some (c :: rest) ∧
      ChordTransport.getConn m addr dialed = some (c, poolSet m addr rest)) ∨
    (∃ d, dialed = some d ∧ ChordTransport.getConn m addr dialed = some (d, m)) := by
  unfold ChordTransport.getConn
  cases hpg : poolGet m addr with
  | none =>
    cases dialed with
    | none => exact Or.inl rfl
    | some d => exact Or.inr (Or.inr ⟨d, rfl, rfl⟩)
  | some cs =>
    cases cs with
    | nil =>
      cases dialed with
      | none => exact Or.inl rfl
      | some d => exact Or.inr (Or.inr ⟨d, rfl, rfl⟩)
    | cons c rest => exact Or.inr (Or.inl ⟨c, rest, rfl, rfl⟩)

/-- C4: for every outbound request (`doRequest` and the first/last pull
`getBlockByType`), an encode/decode I/O error — benign EOF included — closes
the connection and leaves it out of the pool, never to be reused, while a
successful request pushes the connection back onto the idle list keyed by its
remote host. -/
theorem doRequest_pool_discipline (m : Pool) (host : String) (dialed : Option Conn)
    (outcome : IOOutcome) (hwf : poolWF m)
    (hdial : ∀ d, dialed = some d → d.host = host ∧ d ∉ poolConns m) :
    (∀ conn, outcome ≠ IOOutcome.ok →
      (ChordTransport.doRequest m host dialed outcome).used = some conn →
      (ChordTransport.doRequest m host dialed outcome).closed = true ∧
        conn ∉ poolConns (ChordTransport.doRequest m host dialed outcome).pool) ∧
    (∀ conn, outcome = IOOutcome.ok →
      (ChordTransport.doRequest m host dialed outcome).used = some conn →
      conn.host = host ∧
      ∃ cs, poolGet (ChordTransport.doRequest m host dialed outcome).pool host =
        some (cs ++ [conn])) ∧
    (∀ conn, outcome ≠ IOOutcome.ok →
      (ChordTransport.getBlockByType m host dialed outcome).used = some conn →
      (ChordTransport.getBlockByType m host dialed outcome).closed = true ∧
        conn ∉ poolConns (ChordTransport.getBlockByType m host dialed outcome).pool) ∧
    (∀ conn, outcome = IOOutcome.ok →
      (ChordTransport.getBlockByType m host dialed outcome).used = some conn →
      conn.host = host ∧
      ∃ cs, poolGet (ChordTransport.getBlockByType m host dialed outcome).pool host =
        some (cs ++ [conn])) := by
  have core :
      (∀ conn, outcome ≠ IOOutcome.ok →
        (ChordTransport.doRequest m host dialed outcome).used = some conn →
        (ChordTransport.doRequest m host dialed outcome).closed = true ∧
          conn ∉ poolConns (ChordTransport.doRequest m host dialed outcome).pool) ∧
      (∀ conn, outcome = IOOutcome.ok →
        (ChordTransport.doRequest m host dialed outcome).used = some conn →
        conn.host = host ∧
        ∃ cs, poolGet (ChordTransport.doRequest m host dialed outcome).pool host =
          some (cs ++ [conn])) := by
    rcases getConn_cases m host dialed with hg | ⟨c, rest, hpg, hg⟩ | ⟨d, hd, hg⟩
    · constructor
      · intro conn _ hused
        simp [ChordTransport.doRequest, hg] at hused
      · intro conn _ hused
        simp [ChordTransport.doRequest, hg] at hused
    · have hchost : c.host = host :=
        conn_host_of_get hwf hpg c (List.mem_cons_self _ _)
      constructor
      · intro conn hne hused
        cases outcome with
        | ok => exact absurd rfl hne
        | eofErr =>
          have hdo : ChordTransport.doRequest m host dialed IOOutcome.eofErr =
              ⟨poolSet m host rest, false, some c, true⟩ := by
            simp [ChordTransport.doRequest, hg]
          rw [hdo] at hused ⊢
          injection hused with hused
          subst hused
          exact ⟨rfl, not_mem_poolSet_tail hwf.1 hpg⟩
        | ioErr =>
          have hdo : ChordTransport.doRequest m host dialed IOOutcome.ioErr =
              ⟨poolSet m host rest, true, some c, true⟩ := by
            simp [ChordTransport.doRequest, hg]
          rw [hdo] at hused ⊢
          injection hused with hused
          subst hused
          exact ⟨rfl, not_mem_poolSet_tail hwf.1 hpg⟩
      · intro conn hok hused
        subst hok
        have hdo : ChordTransport.doRequest m host dialed IOOutcome.ok =
            ⟨ChordTransport.returnConn (poolSet m host rest) c, false, some c, false⟩ := by
          simp [ChordTransport.doRequest, hg]
        rw [hdo] at hused ⊢
        injection hused with hused
        subst hused
        obtain ⟨cs, hcs⟩ := returnConn_get (poolSet m host rest) c
        rw [hchost] at hcs
        exact ⟨hchost, cs, hcs⟩
    · obtain ⟨hdh, hdm⟩ := hdial d hd
      constructor
      · intro conn hne hused
        cases outcome with
        | ok => exact absurd rfl hne
        | eofErr =>
          have hdo : ChordTransport.doRequest m host dialed IOOutcome.eofErr =
              ⟨m, false, some d, true⟩ := by
            simp [ChordTransport.doRequest, hg]
          rw [hdo] at hused ⊢
          injection hused with hused
          subst hused
          exact ⟨rfl, hdm⟩
        | ioErr =>
          have hdo : ChordTransport.doRequest m host dialed IOOutcome.ioErr =
              ⟨m, true, some d, true⟩ := by
            simp [ChordTransport.doRequest, hg]
          rw [hdo] at hused ⊢
          injection hused with hused
          subst hused
          exact ⟨rfl, hdm⟩
      · intro conn hok hused
        subst hok
        have hdo : ChordTransport.doRequest m host dialed IOOutcome.ok =
            ⟨ChordTransport.returnConn m d, false, some d, false⟩ := by
          simp [ChordTransport.doRequest, hg]
        rw [hdo] at hused ⊢
        injection hused with hused
        subst hused
        obtain ⟨cs, hcs⟩ := returnConn_get m d
        rw [hdh] at hcs
        exact ⟨hdh, cs, hcs⟩
  exact ⟨core.1, core.2, core.1, core.2⟩

/-- C4 witness: a pooled connection for host h1 suffers an I/O error on a
request to h1 — the theorem applies with every hypothesis discharged. -/
theorem doRequest_pool_discipline_witness :
    (∀ conn, IOOutcome.ioErr ≠ IOOutcome.ok →
      (ChordTransport.doRequest c4pool "h1" none IOOutcome.ioErr).used = some conn →
      (ChordTransport.doRequest c4pool "h1" none IOOutcome.ioErr).closed = true ∧
        conn ∉ poolConns (ChordTransport.doRequest c4pool "h1" none IOOutcome.ioErr).pool) ∧
    (∀ conn, IOOutcome.ioErr = IOOutcome.ok →
      (ChordTransport.doRequest c4pool "h1" none IOOutcome.ioErr).used = some conn →
      conn.host = "h1" ∧
      ∃ cs, poolGet (ChordTransport.doRequest c4pool "h1" none IOOutcome.ioErr).pool "h1" =
        some (cs ++ [conn])) ∧
    (∀ conn, IOOutcome.ioErr ≠ IOOutcome.ok →
      (ChordTransport.getBlockByType c4pool "h1" none IOOutcome.ioErr).used = some conn →
      (ChordTransport.getBlockByType c4pool "h1" none IOOutcome.ioErr).closed = true ∧
        conn ∉ poolConns (ChordTransport.getBlockByType c4pool "h1" none IOOutcome.ioErr).pool) ∧
    (∀ conn, IOOutcome.ioErr = IOOutcome.ok →
      (ChordTransport.getBlockByType c4pool "h1" none IOOutcome.ioErr).used = some conn →
      conn.host = "h1" ∧
      ∃ cs, poolGet (ChordTransport.getBlockByType c4pool "h1" none IOOutcome.ioErr).pool "h1" =
        some (cs ++ [conn])) :=
  doRequest_pool_discipline c4pool "h1" none IOOutcome.ioErr (by decide)
    (fun _ hd => Option.noConfusion hd)

/-- C2 counterexample: two sorted inputs with a repeated signature on which
the code's diff (cursor advancing to the match) differs from the claim's
description (cursor advancing past the match): the code returns [] here, the
described algorithm returns the duplicate. -/
theorem diff_cursor_past_cex :
    sortedBySig c2a ∧ sortedBySig c2b ∧
    DiffTransactionSlices c2a c2b ≠ DiffTransactionSlicesSpec c2a c2b := by decide

/-- C2 (amended): `DiffTransactionSlices(a, b)` scans `a` in order with a
single forward cursor into `b` that only advances and never resets; for each
transaction of `a` it searches `b` from the cursor forward for a matching
signature, on a match advances the cursor TO the matched position (the next
search resumes at that position, not past it), and on no match emits that
transaction into the diff. -/
theorem diff_forward_cursor (a b : TransactionSlice) :
    DiffTransactionSlices a b = diffFrom a b 0 ∧
    ∀ sg start j, findFrom b sg start = some j → start ≤ j :=
  ⟨diff_eq_diffFrom a b, fun _ _ _ h => findFrom_le h⟩

/-- C3: for the replica set a broadcast's ring lookup returns, the transport
issues exactly one request per unique physical host — multiple virtual nodes
on one host are deduplicated — and never one to the local node's own host. -/
theorem broadcast_unique_hosts (self : String) (vns : VnodeSlice) :
    (ChordTransport.broadcast self (Except.ok vns)).Nodup ∧
    self ∉ ChordTransport.broadcast self (Except.ok vns) ∧
    ∀ h, h ∈ ChordTransport.broadcast self (Except.ok vns) ↔
      (h ∈ vns.map Vnode.Host ∧ h ≠ self) := by
  refine ⟨?_, ?_, ?_⟩
  · exact ((vns.map Vnode.Host).nodup_dedup).filter _
  · intro hmem
    simp only [ChordTransport.broadcast, broadcastHosts, List.mem_filter,
      decide_eq_true_eq] at hmem
    exact hmem.2 rfl
  · intro h
    simp [ChordTransport.broadcast, broadcastHosts, VnodeSlice.UniqueHosts,
      List.mem_filter, List.mem_dedup]

/-- C5: receiving a new seed on the handoff queue resets the seed's nonce to
0, recomputes its Merkle root over its current transaction set and restamps
it, all before any hashing for that seed (every hash evaluated in the seed
step is of the reseeded block), and discards all search state of the previous
seed (the step does not depend on the prior miner state). -/
theorem miner_seed_resets (kp : Keypair) (s : MinerState) (b : Block) (now : Nat) :
    Block.Nonce (minerReseed b now) = 0 ∧
    Block.MerkelRoot (minerReseed b now) = Block.GenerateMerkelRoot b ∧
    Block.Timestamp (minerReseed b now) = now ∧
    (∀ h ∈ (minerStep kp s (MinerEvent.seed b now)).2.hashed,
      h = Block.Hash (minerReseed b now)) ∧
    minerStep kp s (MinerEvent.seed b now) = minerStep kp ⟨b⟩ (MinerEvent.seed b now) := by
  refine ⟨rfl, rfl, rfl, ?_, rfl⟩
  intro h hh
  simp only [minerStep, minerIter] at hh
  split at hh
  · split at hh
    · simpa using hh
    · simpa using hh
  · simp at hh

theorem minerIter_empty (kp : Keypair) (block : Block)
    (h : block.TransactionSlice = []) :
    minerIter kp block = (block, ⟨none, []⟩) := by
  simp [minerIter, h]

/-- C6: the miner never emits a sealed block for an empty transaction set:
started on a seed with no transactions and fed only timer wakes and further
empty seeds, every pass of the loop emits nothing and evaluates no
proof-of-work. -/
theorem miner_empty_never_emits (kp : Keypair) (s : MinerState) (evs : List MinerEvent)
    (h0 : s.block.TransactionSlice = [])
    (hevs : evs.all MinerEvent.keepsEmpty = true) :
    ((minerRun kp s evs).2.all MinerOutput.silent) = true := by
  induction evs generalizing s with
  | nil => simp [minerRun]
  | cons e es ih =>
    simp only [List.all_cons, Bool.and_eq_true] at hevs
    obtain ⟨he, hes⟩ := hevs
    cases e with
    | wake =>
      have hiter := minerIter_empty kp s.block h0
      simp only [minerRun, minerStep, hiter, List.all_cons, Bool.and_eq_true]
      exact ⟨rfl, ih ⟨s.block⟩ h0 hes⟩
    | seed b now =>
      simp only [MinerEvent.keepsEmpty, List.isEmpty_iff] at he
      have hres : (minerReseed b now).TransactionSlice = [] := by
        simp [minerReseed, he]
      have hiter := minerIter_empty kp (minerReseed b now) hres
      simp only [minerRun, minerStep, hiter, List.all_cons, Bool.and_eq_true]
      exact ⟨rfl, ih ⟨minerReseed b now⟩ hres hes⟩

/-- C6 witness: an empty seed, a wake, an empty reseed and another wake. -/
theorem miner_empty_never_emits_witness :
    ((minerRun ⟨[1], [2]⟩ c6s c6evs).2.all MinerOutput.silent) = true :=
  miner_empty_never_emits ⟨[1], [2]⟩ c6s c6evs (by decide) (by decide)

/-- C7: `RequestBlocks` never forwards the "not found" sentinel (a block with
a nil header) into the engine's block queue: every forwarded block has a
header and is a genuine response some host returned. -/
theorem requestBlocks_no_sentinel (self : String)
    (lookup : List Nat → Except Unit VnodeSlice)
    (resp : String → List Nat → Except Unit Block) (hashes : List (List Nat)) :
    ∀ blk ∈ ChordTransport.RequestBlocks self lookup resp hashes,
      blk.BlockHeader ≠ none ∧
      ∃ host hsh, hsh ∈ hashes ∧ resp host hsh = Except.ok blk := by
  intro blk hblk
  simp only [ChordTransport.RequestBlocks, List.mem_flatMap] at hblk
  obtain ⟨hsh, hh, hmem⟩ := hblk
  cases hl : lookup hsh with
  | error e => rw [hl] at hmem; simp at hmem
  | ok vns =>
    rw [hl] at hmem
    simp only [List.mem_filterMap] at hmem
    obtain ⟨host, _hhost, hres⟩ := hmem
    cases hr : resp host hsh with
    | error e => rw [hr] at hres; simp at hres
    | ok b2 =>
      rw [hr] at hres
      dsimp only at hres
      cases hb : b2.BlockHeader with
      | none => rw [hb] at hres; simp at hres
      | some hd =>
        rw [hb] at hres
        simp only [Option.some.injEq] at hres
        subst hres
        exact ⟨by simp [hb], host, hsh, hh, hr⟩

/-- C7 witness: a single genuine response forwarded, with the theorem's
conclusion at that block. -/
theorem requestBlocks_no_sentinel_witness :
    c7blk.BlockHeader ≠ none ∧
    ∃ host hsh, hsh ∈ c7hashes ∧ c7resp host hsh = Except.ok c7blk :=
  requestBlocks_no_sentinel "me" c7lookup c7resp c7hashes c7blk (by decide)

/-- C8: an incoming transaction rejected as a duplicate signature or for a
failed transaction-level proof-of-work leaves the engine unchanged — pending
transaction count unchanged, no miner reseed, no outbound message — and a
second submission of the same transaction is always a no-op, so a duplicate
increments the count only once. -/
theorem handleTransaction_rejects (bl : Blockchain) (tr : Transaction) :
    ((TransactionSlice.Exists bl.CurrentBlock.TransactionSlice tr = true ∨
        Transaction.VerifyTransaction TRANSACTION_POW tr = false) →
      bl.handleTransaction tr = (bl, noEffects)) ∧
    (bl.handleTransaction tr).1.handleTransaction tr =
      ((bl.handleTransaction tr).1, noEffects) := by
  constructor
  · intro hrej
    rcases hrej with hd | hv
    · simp [Blockchain.handleTransaction, hd]
    · by_cases hd : TransactionSlice.Exists bl.CurrentBlock.TransactionSlice tr = true
      · simp [Blockchain.handleTransaction, hd]
      · simp [Blockchain.handleTransaction, hd, hv]
  · by_cases hd : TransactionSlice.Exists bl.CurrentBlock.TransactionSlice tr = true
    · simp [Blockchain.handleTransaction, hd]
    · by_cases hv : Transaction.VerifyTransaction TRANSACTION_POW tr = true
      · have hdup : TransactionSlice.Exists
            (Block.AddTransaction bl.CurrentBlock tr).TransactionSlice tr = true := by
          simp [Block.AddTransaction, TransactionSlice.Exists]
        simp [Blockchain.handleTransaction, hd, hv, hdup]
      · have hv' : Transaction.VerifyTransaction TRANSACTION_POW tr = false := by
          revert hv
          cases Transaction.VerifyTransaction TRANSACTION_POW tr <;> simp
        simp [Blockchain.handleTransaction, hd, hv']

/-- C1 (a code bug, evaluated): a verified, non-duplicate block whose
previous-hash matches neither the chain tip's hash nor the pending block's
hash is nonetheless appended and broadcast by `Blockchain.Run`'s block arm —
the code compares the previous-hash against the PENDING block's hash and logs
the gap on equality, so the claimed gap case (mismatch with the chain tip)
falls through to append-and-broadcast. -/
theorem run_gap_divergence :
    Block.PrevBlock c1Block ≠ Block.Hash c1Genesis ∧
    BlockSlice.PreviousBlock c1State.BlockSlice = some c1Genesis ∧
    BlockSlice.Exists c1State.BlockSlice c1Block = false ∧
    Block.VerifyBlock BLOCK_POW c1Block = true ∧
    (c1State.handleBlock c1Block).1.BlockSlice.length = 2 ∧
    (c1State.handleBlock c1Block).2.msgs ≠ [] := by decide
